import Mathlib

/-!
Shallow embedding of the parallel tree search repository
(`src/include/treenode.hpp`, `src/include/paralleltreesearch.hpp`,
`src/include/threadpool.hpp`, `src/main.cpp`).

The engine's run is modelled deterministically: the shared task deque of
`ParallelTreeSearch` is a LIFO stack processed by one logical worker
executing exactly the per-task body of `worker_loop` (visit, match test,
bounded spawning below the cutoff depth, sequential descent otherwise).
The shared-memory publish race of `worker_loop` is modelled separately by a
small interleaving semantics over the three shared operations the source
performs when a node matches.
-/

namespace PTS

/-- Tree node translated from `src/include/treenode.hpp` (`TreeNode<T>`):
a value `data`, an ordered child list `children`, and the atomic
`visited` flag (initialised `false` by the constructor). -/
inductive TreeNode (α : Type) : Type where
  | node (data : α) (visited : Bool) (children : List (TreeNode α))

/-- Field accessor for `TreeNode::data`. -/
def TreeNode.data {α : Type} : TreeNode α → α
  | .node d _ _ => d

/-- Field accessor for `TreeNode::visited`. -/
def TreeNode.visitedFlag {α : Type} : TreeNode α → Bool
  | .node _ v _ => v

/-- Field accessor for `TreeNode::children`. -/
def TreeNode.children {α : Type} : TreeNode α → List (TreeNode α)
  | .node _ _ cs => cs

mutual
/-- Number of nodes of a tree (used to state the node-count claims). -/
def TreeNode.size {α : Type} : TreeNode α → Nat
  | .node _ _ cs => 1 + sizeList cs

/-- Total number of nodes of a list of trees. -/
def sizeList {α : Type} : List (TreeNode α) → Nat
  | [] => 0
  | c :: rest => TreeNode.size c + sizeList rest
end

mutual
/-- Whether some node of the tree has value `target` (the `==` of the
source is modelled by decidable equality on `α`). -/
def TreeNode.contains {α : Type} [DecidableEq α] : TreeNode α → α → Bool
  | .node d _ cs, target => decide (d = target) || containsList cs target

/-- Whether some node of some tree in the list has value `target`. -/
def containsList {α : Type} [DecidableEq α] : List (TreeNode α) → α → Bool
  | [], _ => false
  | c :: rest, target => TreeNode.contains c target || containsList rest target
end

/-- Tunable `PAR_CUTOFF_DEPTH` (paralleltreesearch.hpp lines 17-19, default 4). -/
def PAR_CUTOFF_DEPTH : Int := 4

/-- Tunable `MAX_PAR_CHILDREN` (paralleltreesearch.hpp lines 21-23, default 2). -/
def MAX_PAR_CHILDREN : Nat := 2

/-- The shared per-run state of `ParallelTreeSearch` (lines 47-51):
`found`, `resultNode`, `nodesVisited`, plus a counter of how many `Task`
objects were created (each `push_task` call), used to state the
"no tasks are created" claims. (`inflight` is implicit: in the
deterministic model it is the length of the pending task stack.) -/
structure SearchState (α : Type) where
  found : Bool
  resultNode : Option (TreeNode α)
  nodesVisited : Nat
  tasksCreated : Nat

/-- `ParallelTreeSearch::Task` (lines 37-40): a node and its depth. -/
structure Task (α : Type) where
  node : TreeNode α
  depth : Int

mutual
/-- `ParallelTreeSearch::sequential_search` (paralleltreesearch.hpp lines
73-86): early-return when `found` is already set, count the visit, publish
on match, otherwise recurse over the children in order, checking `found`
before each child. -/
def sequential_search {α : Type} [DecidableEq α] :
    TreeNode α → Int → α → SearchState α → SearchState α
  | TreeNode.node d v cs, _depth, target, s =>
    if s.found then s
    else if d = target then
      { s with nodesVisited := s.nodesVisited + 1, found := true,
               resultNode := some (TreeNode.node d v cs) }
    else seqChildren cs _depth target { s with nodesVisited := s.nodesVisited + 1 }

/-- The `for (auto& c : node->children)` loop of `sequential_search`
(lines 82-85): each child is searched at `depth + 1`, with a `found`
check before each child. -/
def seqChildren {α : Type} [DecidableEq α] :
    List (TreeNode α) → Int → α → SearchState α → SearchState α
  | [], _, _, s => s
  | c :: rest, depth, target, s =>
    if s.found then s
    else seqChildren rest depth target (sequential_search c (depth + 1) target s)
end

/-- The child loop of `worker_loop` when the task is below the cutoff depth
(paralleltreesearch.hpp lines 128-141): `found` is checked at the top of
each iteration; while `spawned < MAX_PAR_CHILDREN` a child becomes a new
`Task` at `depth + 1` (with `inflight` incremented and `tasksCreated`
counting the `push_task`); the remaining children are searched
sequentially, breaking once `found` is set. Returns the final state and
the tasks pushed, in push order. -/
def spawnLoop {α : Type} [DecidableEq α] (depth : Int) (target : α) :
    List (TreeNode α) → SearchState α → Nat → SearchState α × List (Task α)
  | [], s, _ => (s, [])
  | c :: rest, s, spawned =>
    if s.found then (s, [])
    else if spawned < MAX_PAR_CHILDREN then
      ((spawnLoop depth target rest { s with tasksCreated := s.tasksCreated + 1 }
          (spawned + 1)).1,
        Task.mk c (depth + 1) ::
          (spawnLoop depth target rest { s with tasksCreated := s.tasksCreated + 1 }
            (spawned + 1)).2)
    else if (sequential_search c (depth + 1) target s).found then
      (sequential_search c (depth + 1) target s, [])
    else spawnLoop depth target rest (sequential_search c (depth + 1) target s) spawned

/-- The per-task body of `worker_loop` (paralleltreesearch.hpp lines
126-146): count the visit, publish on match, else if the node has children
either spawn boundedly (below the cutoff) or — at/after the cutoff — run
`sequential_search` on the whole node again at the same depth. Returns the
state after the task and the new tasks pushed, in push order. -/
def execTask {α : Type} [DecidableEq α] (target : α) :
    Task α → SearchState α → SearchState α × List (Task α)
  | ⟨TreeNode.node d v cs, depth⟩, s =>
    if d = target then
      ({ s with nodesVisited := s.nodesVisited + 1, found := true,
                resultNode := some (TreeNode.node d v cs) }, [])
    else if cs.isEmpty then ({ s with nodesVisited := s.nodesVisited + 1 }, [])
    else if depth < PAR_CUTOFF_DEPTH then
      spawnLoop depth target cs { s with nodesVisited := s.nodesVisited + 1 } 0
    else
      (sequential_search (TreeNode.node d v cs) depth target
        { s with nodesVisited := s.nodesVisited + 1 }, [])

/-- Total size of the nodes on the pending task stack (the termination
measure for processing the task stack). -/
def tasksSize {α : Type} : List (Task α) → Nat
  | [] => 0
  | t :: rest => TreeNode.size t.node + tasksSize rest

theorem size_pos {α : Type} (t : TreeNode α) : 0 < TreeNode.size t := by
  cases t with
  | node d v cs => simp [TreeNode.size]

theorem tasksSize_append {α : Type} (a b : List (Task α)) :
    tasksSize (a ++ b) = tasksSize a + tasksSize b := by
  induction a with
  | nil => simp [tasksSize]
  | cons t rest ih => simp [tasksSize, ih]; omega

theorem tasksSize_reverse {α : Type} (a : List (Task α)) :
    tasksSize a.reverse = tasksSize a := by
  induction a with
  | nil => rfl
  | cons t rest ih => simp [tasksSize, List.reverse_cons, tasksSize_append, ih]; omega

theorem spawnLoop_tasksSize {α : Type} [DecidableEq α] (depth : Int) (target : α) :
    ∀ (cs : List (TreeNode α)) (s : SearchState α) (spawned : Nat),
      tasksSize (spawnLoop depth target cs s spawned).2 ≤ sizeList cs := by
  intro cs
  induction cs with
  | nil => intro s spawned; simp [spawnLoop, tasksSize, sizeList]
  | cons c rest ih =>
    intro s spawned
    rw [spawnLoop]
    by_cases hf : s.found = true
    · rw [if_pos hf]
      simp only [tasksSize, sizeList]
      have := size_pos c
      omega
    · rw [if_neg hf]
      by_cases hs : spawned < MAX_PAR_CHILDREN
      · rw [if_pos hs]
        simp only [tasksSize, sizeList]
        have h2 := ih { s with tasksCreated := s.tasksCreated + 1 } (spawned + 1)
        omega
      · rw [if_neg hs]
        by_cases hs1 : (sequential_search c (depth + 1) target s).found = true
        · rw [if_pos hs1]
          simp only [tasksSize, sizeList]
          have := size_pos c
          omega
        · rw [if_neg hs1]
          have h2 := ih (sequential_search c (depth + 1) target s) spawned
          simp only [sizeList]
          have := size_pos c
          omega

theorem execTask_tasksSize {α : Type} [DecidableEq α] (target : α)
    (t : Task α) (s : SearchState α) :
    tasksSize (execTask target t s).2 < TreeNode.size t.node := by
  obtain ⟨n, depth⟩ := t
  cases n with
  | node d v cs =>
    rw [execTask]
    by_cases hd : d = target
    · rw [if_pos hd]
      simp only [tasksSize, TreeNode.size]
      omega
    · rw [if_neg hd]
      by_cases hcs : cs.isEmpty = true
      · rw [if_pos hcs]
        simp only [tasksSize, TreeNode.size]
        omega
      · rw [if_neg hcs]
        by_cases hdep : depth < PAR_CUTOFF_DEPTH
        · rw [if_pos hdep]
          have h2 := spawnLoop_tasksSize depth target cs
            { s with nodesVisited := s.nodesVisited + 1 } 0
          simp only [TreeNode.size]
          omega
        · rw [if_neg hdep]
          simp only [tasksSize, TreeNode.size]
          omega

/-- The task-processing loop of `worker_loop` (paralleltreesearch.hpp lines
104-152), deterministically: tasks are popped LIFO from the back of the
deque (`pop_back`); a popped task is discarded without visiting once
`found` is set (lines 119-125); otherwise its body runs and the tasks it
pushed go on the back of the deque. The run ends when the queue drains. -/
def runTasks {α : Type} [DecidableEq α] (target : α) :
    List (Task α) → SearchState α → SearchState α
  | [], s => s
  | t :: rest, s =>
    if s.found then runTasks target rest s
    else runTasks target ((execTask target t s).2.reverse ++ rest) (execTask target t s).1
termination_by ts _ => tasksSize ts
decreasing_by
  · simp only [tasksSize]
    have := size_pos t.node
    omega
  · simp only [tasksSize_append, tasksSize_reverse, tasksSize]
    have := execTask_tasksSize target t s
    omega

/-- `ParallelTreeSearch::search` (paralleltreesearch.hpp lines 160-202):
reset every piece of per-run state, return `nullptr` immediately for an
empty root, otherwise seed `Task{root, 0}` (counted by `tasksCreated`) and
run until the work drains. The returned `SearchState` carries the returned
pointer (`resultNode`), `getNodesVisited()` and the task-creation count. -/
def ParallelTreeSearch.search {α : Type} [DecidableEq α] (prior : SearchState α)
    (root : Option (TreeNode α)) (target : α) : SearchState α :=
  match root with
  | none =>
      { prior with found := false, resultNode := none, nodesVisited := 0, tasksCreated := 0 }
  | some r =>
      runTasks target [⟨r, 0⟩]
        { prior with found := false, resultNode := none, nodesVisited := 0, tasksCreated := 1 }

theorem sequential_search_found_id {α : Type} [DecidableEq α] (t : TreeNode α)
    (depth : Int) (target : α) (s : SearchState α) (h : s.found = true) :
    sequential_search t depth target s = s := by
  cases t with
  | node d v cs => rw [sequential_search, if_pos h]

theorem seqChildren_found_id {α : Type} [DecidableEq α] (cs : List (TreeNode α))
    (depth : Int) (target : α) (s : SearchState α) (h : s.found = true) :
    seqChildren cs depth target s = s := by
  cases cs with
  | nil => rw [seqChildren]
  | cons c rest => rw [seqChildren, if_pos h]

mutual
theorem sequential_search_no_find {α : Type} [DecidableEq α] (t : TreeNode α)
    (depth : Int) (target : α) (s : SearchState α)
    (h : TreeNode.contains t target = false) :
    (sequential_search t depth target s).found = s.found ∧
    (sequential_search t depth target s).resultNode = s.resultNode := by
  cases t with
  | node d v cs =>
    rw [TreeNode.contains] at h
    simp only [Bool.or_eq_false_iff, decide_eq_false_iff_not] at h
    rw [sequential_search]
    by_cases hf : s.found = true
    · rw [if_pos hf]; exact ⟨rfl, rfl⟩
    · rw [if_neg hf, if_neg h.1]
      exact seqChildren_no_find cs depth target _ h.2

theorem seqChildren_no_find {α : Type} [DecidableEq α] (cs : List (TreeNode α))
    (depth : Int) (target : α) (s : SearchState α)
    (h : containsList cs target = false) :
    (seqChildren cs depth target s).found = s.found ∧
    (seqChildren cs depth target s).resultNode = s.resultNode := by
  cases cs with
  | nil => rw [seqChildren]; exact ⟨rfl, rfl⟩
  | cons c rest =>
    rw [containsList] at h
    simp only [Bool.or_eq_false_iff] at h
    rw [seqChildren]
    by_cases hf : s.found = true
    · rw [if_pos hf]; exact ⟨rfl, rfl⟩
    · rw [if_neg hf]
      have h1 := sequential_search_no_find c (depth + 1) target s h.1
      have h2 := seqChildren_no_find rest depth target
        (sequential_search c (depth + 1) target s) h.2
      exact ⟨h2.1.trans h1.1, h2.2.trans h1.2⟩
end

mutual
theorem sequential_search_complete {α : Type} [DecidableEq α] (t : TreeNode α)
    (depth : Int) (target : α) (s : SearchState α)
    (hf : s.found = false) (h : TreeNode.contains t target = true) :
    (sequential_search t depth target s).found = true := by
  cases t with
  | node d v cs =>
    rw [sequential_search, if_neg (by simp [hf])]
    by_cases hd : d = target
    · rw [if_pos hd]
    · rw [if_neg hd]
      rw [TreeNode.contains] at h
      simp only [Bool.or_eq_true_iff, decide_eq_true_eq] at h
      have hcl : containsList cs target = true := by
        cases h with
        | inl h => exact absurd h hd
        | inr h => exact h
      exact seqChildren_complete cs depth target _ (by simp [hf]) hcl

theorem seqChildren_complete {α : Type} [DecidableEq α] (cs : List (TreeNode α))
    (depth : Int) (target : α) (s : SearchState α)
    (hf : s.found = false) (h : containsList cs target = true) :
    (seqChildren cs depth target s).found = true := by
  cases cs with
  | nil => rw [containsList] at h; exact absurd h (by simp)
  | cons c rest =>
    rw [seqChildren, if_neg (by simp [hf])]
    rw [containsList] at h
    cases hc : TreeNode.contains c target with
    | true =>
      have h1 := sequential_search_complete c (depth + 1) target s hf hc
      rw [seqChildren_found_id rest depth target _ h1]
      exact h1
    | false =>
      have hrest : containsList rest target = true := by
        rw [hc] at h; simpa using h
      have h1 := (sequential_search_no_find c (depth + 1) target s hc).1
      exact seqChildren_complete rest depth target _ (h1.trans hf) hrest
end

/-- Invariant tying the published result to the `found` flag: `found` holds
exactly when a result has been published, and any published node's value
equals the target. -/
def GoodState {α : Type} [DecidableEq α] (target : α) (s : SearchState α) : Prop :=
  (s.found = true ↔ s.resultNode.isSome = true) ∧
  (∀ n, s.resultNode = some n → TreeNode.data n = target)

mutual
theorem sequential_search_good {α : Type} [DecidableEq α] (t : TreeNode α)
    (depth : Int) (target : α) (s : SearchState α) (h : GoodState target s) :
    GoodState target (sequential_search t depth target s) := by
  cases t with
  | node d v cs =>
    rw [sequential_search]
    by_cases hf : s.found = true
    · rw [if_pos hf]; exact h
    · rw [if_neg hf]
      by_cases hd : d = target
      · rw [if_pos hd]
        exact ⟨by simp, by intro n hn; cases hn; exact hd⟩
      · rw [if_neg hd]
        exact seqChildren_good cs depth target _ ⟨h.1, h.2⟩

theorem seqChildren_good {α : Type} [DecidableEq α] (cs : List (TreeNode α))
    (depth : Int) (target : α) (s : SearchState α) (h : GoodState target s) :
    GoodState target (seqChildren cs depth target s) := by
  cases cs with
  | nil => rw [seqChildren]; exact h
  | cons c rest =>
    rw [seqChildren]
    by_cases hf : s.found = true
    · rw [if_pos hf]; exact h
    · rw [if_neg hf]
      exact seqChildren_good rest depth target _
        (sequential_search_good c (depth + 1) target s h)
end

theorem found_false_of_not_true {b : Bool} (h : ¬ b = true) : b = false := by
  cases b with
  | false => rfl
  | true => exact absurd rfl h

theorem containsList_false_of_mem {α : Type} [DecidableEq α] {cs : List (TreeNode α)}
    {target : α} (h : containsList cs target = false) {c : TreeNode α} (hc : c ∈ cs) :
    TreeNode.contains c target = false := by
  induction cs with
  | nil => cases hc
  | cons c0 rest ih =>
    rw [containsList] at h
    simp only [Bool.or_eq_false_iff] at h
    cases hc with
    | head => exact h.1
    | tail _ hmem => exact ih h.2 hmem

theorem spawnLoop_no_find {α : Type} [DecidableEq α] (depth : Int) (target : α)
    (cs : List (TreeNode α)) (h : containsList cs target = false) :
    ∀ (s : SearchState α) (spawned : Nat),
      (spawnLoop depth target cs s spawned).1.found = s.found ∧
      (spawnLoop depth target cs s spawned).1.resultNode = s.resultNode := by
  induction cs with
  | nil => intro s spawned; rw [spawnLoop]; exact ⟨rfl, rfl⟩
  | cons c rest ih =>
    intro s spawned
    rw [containsList] at h
    simp only [Bool.or_eq_false_iff] at h
    rw [spawnLoop]
    by_cases hf : s.found = true
    · rw [if_pos hf]; exact ⟨rfl, rfl⟩
    · rw [if_neg hf]
      by_cases hs : spawned < MAX_PAR_CHILDREN
      · rw [if_pos hs]
        exact ih h.2 { s with tasksCreated := s.tasksCreated + 1 } (spawned + 1)
      · rw [if_neg hs]
        have h1 := sequential_search_no_find c (depth + 1) target s h.1
        by_cases hs1 : (sequential_search c (depth + 1) target s).found = true
        · rw [if_pos hs1]; exact h1
        · rw [if_neg hs1]
          have h2 := ih h.2 (sequential_search c (depth + 1) target s) spawned
          exact ⟨h2.1.trans h1.1, h2.2.trans h1.2⟩

theorem spawnLoop_complete {α : Type} [DecidableEq α] (depth : Int) (target : α)
    (cs : List (TreeNode α)) :
    ∀ (s : SearchState α) (spawned : Nat), s.found = false →
      containsList cs target = true →
      (spawnLoop depth target cs s spawned).1.found = true ∨
      ∃ task ∈ (spawnLoop depth target cs s spawned).2,
        TreeNode.contains task.node target = true := by
  induction cs with
  | nil => intro s spawned _ h; rw [containsList] at h; exact absurd h (by simp)
  | cons c rest ih =>
    intro s spawned hf h
    rw [containsList] at h
    rw [spawnLoop, if_neg (by simp [hf])]
    by_cases hs : spawned < MAX_PAR_CHILDREN
    · rw [if_pos hs]
      cases hc : TreeNode.contains c target with
      | true =>
        right
        exact ⟨Task.mk c (depth + 1), List.mem_cons_self _ _, hc⟩
      | false =>
        have hrest : containsList rest target = true := by
          rw [hc] at h; simpa using h
        cases ih { s with tasksCreated := s.tasksCreated + 1 } (spawned + 1) hf hrest with
        | inl h1 => exact Or.inl h1
        | inr h1 =>
          obtain ⟨task, hmem, htask⟩ := h1
          exact Or.inr ⟨task, List.mem_cons_of_mem _ hmem, htask⟩
    · rw [if_neg hs]
      cases hc : TreeNode.contains c target with
      | true =>
        have h1 := sequential_search_complete c (depth + 1) target s hf hc
        rw [if_pos h1]
        exact Or.inl h1
      | false =>
        have hrest : containsList rest target = true := by
          rw [hc] at h; simpa using h
        have h1 := (sequential_search_no_find c (depth + 1) target s hc).1
        rw [if_neg (by rw [h1, hf]; simp)]
        exact ih (sequential_search c (depth + 1) target s) spawned (h1.trans hf) hrest

theorem spawnLoop_good {α : Type} [DecidableEq α] (depth : Int) (target : α)
    (cs : List (TreeNode α)) :
    ∀ (s : SearchState α) (spawned : Nat), GoodState target s →
      GoodState target (spawnLoop depth target cs s spawned).1 := by
  induction cs with
  | nil => intro s spawned h; rw [spawnLoop]; exact h
  | cons c rest ih =>
    intro s spawned h
    rw [spawnLoop]
    by_cases hf : s.found = true
    · rw [if_pos hf]; exact h
    · rw [if_neg hf]
      by_cases hs : spawned < MAX_PAR_CHILDREN
      · rw [if_pos hs]
        exact ih { s with tasksCreated := s.tasksCreated + 1 } (spawned + 1) ⟨h.1, h.2⟩
      · rw [if_neg hs]
        have hg := sequential_search_good c (depth + 1) target s h
        by_cases hs1 : (sequential_search c (depth + 1) target s).found = true
        · rw [if_pos hs1]; exact hg
        · rw [if_neg hs1]
          exact ih (sequential_search c (depth + 1) target s) spawned hg

theorem spawnLoop_mem {α : Type} [DecidableEq α] (depth : Int) (target : α)
    (cs : List (TreeNode α)) :
    ∀ (s : SearchState α) (spawned : Nat),
      ∀ task ∈ (spawnLoop depth target cs s spawned).2,
        task.depth = depth + 1 ∧ task.node ∈ cs := by
  induction cs with
  | nil => intro s spawned task hmem; rw [spawnLoop] at hmem; cases hmem
  | cons c rest ih =>
    intro s spawned task hmem
    rw [spawnLoop] at hmem
    by_cases hf : s.found = true
    · rw [if_pos hf] at hmem; cases hmem
    · rw [if_neg hf] at hmem
      by_cases hs : spawned < MAX_PAR_CHILDREN
      · rw [if_pos hs] at hmem
        cases hmem with
        | head => exact ⟨rfl, List.mem_cons_self _ _⟩
        | tail _ hmem =>
          have := ih { s with tasksCreated := s.tasksCreated + 1 } (spawned + 1) task hmem
          exact ⟨this.1, List.mem_cons_of_mem _ this.2⟩
      · rw [if_neg hs] at hmem
        by_cases hs1 : (sequential_search c (depth + 1) target s).found = true
        · rw [if_pos hs1] at hmem; cases hmem
        · rw [if_neg hs1] at hmem
          have := ih (sequential_search c (depth + 1) target s) spawned task hmem
          exact ⟨this.1, List.mem_cons_of_mem _ this.2⟩

theorem spawnLoop_length {α : Type} [DecidableEq α] (depth : Int) (target : α)
    (cs : List (TreeNode α)) :
    ∀ (s : SearchState α) (spawned : Nat),
      (spawnLoop depth target cs s spawned).2.length ≤ MAX_PAR_CHILDREN - spawned := by
  induction cs with
  | nil => intro s spawned; rw [spawnLoop]; simp
  | cons c rest ih =>
    intro s spawned
    rw [spawnLoop]
    by_cases hf : s.found = true
    · rw [if_pos hf]; simp
    · rw [if_neg hf]
      by_cases hs : spawned < MAX_PAR_CHILDREN
      · rw [if_pos hs]
        have := ih { s with tasksCreated := s.tasksCreated + 1 } (spawned + 1)
        simp only [List.length_cons]
        omega
      · rw [if_neg hs]
        by_cases hs1 : (sequential_search c (depth + 1) target s).found = true
        · rw [if_pos hs1]; simp
        · rw [if_neg hs1]
          exact ih (sequential_search c (depth + 1) target s) spawned

theorem spawnLoop_tasks_eq {α : Type} [DecidableEq α] (depth : Int) (target : α)
    (cs : List (TreeNode α)) :
    ∀ (s : SearchState α) (spawned : Nat), s.found = false →
      (spawnLoop depth target cs s spawned).2 =
        (cs.take (MAX_PAR_CHILDREN - spawned)).map (fun c => Task.mk c (depth + 1)) := by
  induction cs with
  | nil => intro s spawned _; rw [spawnLoop]; simp
  | cons c rest ih =>
    intro s spawned hf
    rw [spawnLoop, if_neg (by simp [hf])]
    by_cases hs : spawned < MAX_PAR_CHILDREN
    · rw [if_pos hs]
      have h1 := ih { s with tasksCreated := s.tasksCreated + 1 } (spawned + 1) hf
      rw [h1]
      have hk : MAX_PAR_CHILDREN - spawned = (MAX_PAR_CHILDREN - (spawned + 1)) + 1 := by
        omega
      rw [hk, List.take_succ_cons, List.map_cons]
    · rw [if_neg hs]
      have hk : MAX_PAR_CHILDREN - spawned = 0 := by omega
      rw [hk]
      simp only [List.take_zero, List.map_nil]
      by_cases hs1 : (sequential_search c (depth + 1) target s).found = true
      · rw [if_pos hs1]
      · rw [if_neg hs1]
        have h1 := ih (sequential_search c (depth + 1) target s) spawned
          (found_false_of_not_true hs1)
        rw [h1, hk]
        simp

theorem spawnLoop_state_eq {α : Type} [DecidableEq α] (depth : Int) (target : α)
    (cs : List (TreeNode α)) :
    ∀ (s : SearchState α) (spawned : Nat), s.found = false →
      (spawnLoop depth target cs s spawned).1 =
        seqChildren (cs.drop (MAX_PAR_CHILDREN - spawned)) depth target
          { s with tasksCreated :=
              s.tasksCreated + min (MAX_PAR_CHILDREN - spawned) cs.length } := by
  induction cs with
  | nil =>
    intro s spawned _
    rw [spawnLoop]
    simp only [List.drop_nil, List.length_nil, Nat.min_zero, Nat.add_zero]
    rw [seqChildren]
  | cons c rest ih =>
    intro s spawned hf
    rw [spawnLoop, if_neg (by simp [hf])]
    by_cases hs : spawned < MAX_PAR_CHILDREN
    · rw [if_pos hs]
      have h1 := ih { s with tasksCreated := s.tasksCreated + 1 } (spawned + 1) hf
      rw [h1]
      have hk : MAX_PAR_CHILDREN - spawned = (MAX_PAR_CHILDREN - (spawned + 1)) + 1 := by
        omega
      rw [hk, List.drop_succ_cons]
      have harith : s.tasksCreated + 1 + min (MAX_PAR_CHILDREN - (spawned + 1)) rest.length =
          s.tasksCreated + min (MAX_PAR_CHILDREN - (spawned + 1) + 1) (c :: rest).length := by
        simp only [List.length_cons]
        omega
      rw [harith]
    · rw [if_neg hs]
      have hk : MAX_PAR_CHILDREN - spawned = 0 := by omega
      rw [hk]
      have hstate : ({ s with tasksCreated := s.tasksCreated + min 0 (c :: rest).length } :
          SearchState α) = s := by
        simp
      rw [List.drop_zero, hstate, seqChildren,
        if_neg (show ¬ s.found = true by simp [hf])]
      by_cases hs1 : (sequential_search c (depth + 1) target s).found = true
      · rw [if_pos hs1]
        rw [seqChildren_found_id rest depth target _ hs1]
      · rw [if_neg hs1]
        have h1 := ih (sequential_search c (depth + 1) target s) spawned
          (found_false_of_not_true hs1)
        rw [h1, hk]
        have hstate2 : ({ (sequential_search c (depth + 1) target s) with
            tasksCreated := (sequential_search c (depth + 1) target s).tasksCreated +
              min 0 rest.length } : SearchState α) =
            sequential_search c (depth + 1) target s := by
          simp
        rw [List.drop_zero, hstate2]

theorem execTask_no_find {α : Type} [DecidableEq α] (target : α) (t : Task α)
    (s : SearchState α) (h : TreeNode.contains t.node target = false) :
    (execTask target t s).1.found = s.found ∧
    (execTask target t s).1.resultNode = s.resultNode ∧
    ∀ task ∈ (execTask target t s).2, TreeNode.contains task.node target = false := by
  obtain ⟨n, depth⟩ := t
  cases n with
  | node d v cs =>
    have h0 : TreeNode.contains (TreeNode.node d v cs) target = false := h
    rw [TreeNode.contains] at h0
    simp only [Bool.or_eq_false_iff, decide_eq_false_iff_not] at h0
    cases cs with
    | nil =>
      rw [execTask, if_neg h0.1, if_pos (by rfl)]
      exact ⟨rfl, rfl, by intro task hmem; cases hmem⟩
    | cons c rest =>
      rw [execTask, if_neg h0.1, if_neg (show ¬ ((c :: rest).isEmpty = true) by simp)]
      by_cases hdep : depth < PAR_CUTOFF_DEPTH
      · rw [if_pos hdep]
        have h1 := spawnLoop_no_find depth target (c :: rest) h0.2
          { s with nodesVisited := s.nodesVisited + 1 } 0
        refine ⟨h1.1, h1.2, ?_⟩
        intro task hmem
        have h2 := spawnLoop_mem depth target (c :: rest)
          { s with nodesVisited := s.nodesVisited + 1 } 0 task hmem
        exact containsList_false_of_mem h0.2 h2.2
      · rw [if_neg hdep]
        have h1 := sequential_search_no_find (TreeNode.node d v (c :: rest)) depth target
          { s with nodesVisited := s.nodesVisited + 1 } h
        exact ⟨h1.1, h1.2, by intro task hmem; cases hmem⟩

theorem execTask_complete {α : Type} [DecidableEq α] (target : α) (t : Task α)
    (s : SearchState α) (hf : s.found = false)
    (h : TreeNode.contains t.node target = true) :
    (execTask target t s).1.found = true ∨
    ∃ task ∈ (execTask target t s).2, TreeNode.contains task.node target = true := by
  obtain ⟨n, depth⟩ := t
  cases n with
  | node d v cs =>
    by_cases hd : d = target
    · left
      rw [execTask, if_pos hd]
    · have h0 : TreeNode.contains (TreeNode.node d v cs) target = true := h
      rw [TreeNode.contains] at h0
      simp only [Bool.or_eq_true_iff, decide_eq_true_eq] at h0
      have hcl : containsList cs target = true := by
        cases h0 with
        | inl h0 => exact absurd h0 hd
        | inr h0 => exact h0
      cases cs with
      | nil => rw [containsList] at hcl; exact absurd hcl (by simp)
      | cons c rest =>
        rw [execTask, if_neg hd, if_neg (show ¬ ((c :: rest).isEmpty = true) by simp)]
        by_cases hdep : depth < PAR_CUTOFF_DEPTH
        · rw [if_pos hdep]
          exact spawnLoop_complete depth target (c :: rest)
            { s with nodesVisited := s.nodesVisited + 1 } 0 hf hcl
        · rw [if_neg hdep]
          left
          exact sequential_search_complete (TreeNode.node d v (c :: rest)) depth target
            { s with nodesVisited := s.nodesVisited + 1 } hf h

theorem execTask_good {α : Type} [DecidableEq α] (target : α) (t : Task α)
    (s : SearchState α) (h : GoodState target s) :
    GoodState target (execTask target t s).1 := by
  obtain ⟨n, depth⟩ := t
  cases n with
  | node d v cs =>
    by_cases hd : d = target
    · rw [execTask, if_pos hd]
      exact ⟨by simp, by intro k hk; cases hk; exact hd⟩
    · cases cs with
      | nil =>
        rw [execTask, if_neg hd, if_pos (by rfl)]
        exact ⟨h.1, h.2⟩
      | cons c rest =>
        rw [execTask, if_neg hd, if_neg (show ¬ ((c :: rest).isEmpty = true) by simp)]
        by_cases hdep : depth < PAR_CUTOFF_DEPTH
        · rw [if_pos hdep]
          exact spawnLoop_good depth target (c :: rest)
            { s with nodesVisited := s.nodesVisited + 1 } 0 ⟨h.1, h.2⟩
        · rw [if_neg hdep]
          exact sequential_search_good (TreeNode.node d v (c :: rest)) depth target
            { s with nodesVisited := s.nodesVisited + 1 } ⟨h.1, h.2⟩

theorem runTasks_found_id {α : Type} [DecidableEq α] (target : α)
    (ts : List (Task α)) (s : SearchState α) (h : s.found = true) :
    runTasks target ts s = s := by
  induction ts with
  | nil => rw [runTasks]
  | cons t rest ih => rw [runTasks, if_pos h]; exact ih

theorem runTasks_complete {α : Type} [DecidableEq α] (target : α) :
    ∀ (ts : List (Task α)) (s : SearchState α), s.found = false →
      (∃ task ∈ ts, TreeNode.contains task.node target = true) →
      (runTasks target ts s).found = true
  | [], _, _, h => by
    obtain ⟨task, hmem, _⟩ := h
    cases hmem
  | t :: rest, s, hf, h => by
    rw [runTasks, if_neg (show ¬ s.found = true by simp [hf])]
    by_cases hft : (execTask target t s).1.found = true
    · rw [runTasks_found_id target _ _ hft]
      exact hft
    · have hf1 := found_false_of_not_true hft
      obtain ⟨task, hmem, htask⟩ := h
      cases List.mem_cons.mp hmem with
      | inl heq =>
        cases execTask_complete target t s hf (heq ▸ htask) with
        | inl h1 => exact absurd h1 hft
        | inr h1 =>
          obtain ⟨task', hmem', htask'⟩ := h1
          exact runTasks_complete target _ _ hf1
            ⟨task', by
              rw [List.mem_append, List.mem_reverse]
              exact Or.inl hmem', htask'⟩
      | inr hmem' =>
        exact runTasks_complete target _ _ hf1
          ⟨task, by rw [List.mem_append]; exact Or.inr hmem', htask⟩
termination_by ts _ _ _ => tasksSize ts
decreasing_by
  all_goals
    simp only [tasksSize, tasksSize_append, tasksSize_reverse]
    have := execTask_tasksSize target t s
    omega

theorem runTasks_no_find {α : Type} [DecidableEq α] (target : α) :
    ∀ (ts : List (Task α)) (s : SearchState α), s.found = false →
      (∀ task ∈ ts, TreeNode.contains task.node target = false) →
      (runTasks target ts s).found = false ∧
      (runTasks target ts s).resultNode = s.resultNode
  | [], _, hf, _ => by rw [runTasks]; exact ⟨hf, rfl⟩
  | t :: rest, s, hf, h => by
    rw [runTasks, if_neg (show ¬ s.found = true by simp [hf])]
    have h1 := execTask_no_find target t s (h t (List.mem_cons_self _ _))
    have hf1 : (execTask target t s).1.found = false := h1.1.trans hf
    have hall : ∀ task ∈ (execTask target t s).2.reverse ++ rest,
        TreeNode.contains task.node target = false := by
      intro task hmem
      rw [List.mem_append, List.mem_reverse] at hmem
      cases hmem with
      | inl hmem => exact h1.2.2 task hmem
      | inr hmem => exact h task (List.mem_cons_of_mem _ hmem)
    have h2 := runTasks_no_find target _ _ hf1 hall
    exact ⟨h2.1, h2.2.trans h1.2.1⟩
termination_by ts _ _ _ => tasksSize ts
decreasing_by
  simp only [tasksSize, tasksSize_append, tasksSize_reverse]
  have := execTask_tasksSize target t s
  omega

theorem runTasks_good {α : Type} [DecidableEq α] (target : α) :
    ∀ (ts : List (Task α)) (s : SearchState α), GoodState target s →
      GoodState target (runTasks target ts s)
  | [], _, h => by rw [runTasks]; exact h
  | t :: rest, s, h => by
    by_cases hf : s.found = true
    · rw [runTasks, if_pos hf]
      exact runTasks_good target rest s h
    · rw [runTasks, if_neg hf]
      exact runTasks_good target _ _ (execTask_good target t s h)
termination_by ts _ _ => tasksSize ts
decreasing_by
  · simp only [tasksSize]
    have := size_pos t.node
    omega
  · simp only [tasksSize, tasksSize_append, tasksSize_reverse]
    have := execTask_tasksSize target t s
    omega

theorem execTask_len {α : Type} [DecidableEq α] (target : α) (t : TreeNode α)
    (depth : Int) (s : SearchState α) :
    (execTask target ⟨t, depth⟩ s).2.length ≤ MAX_PAR_CHILDREN := by
  cases t with
  | node d v cs =>
    by_cases hd : d = target
    · rw [execTask, if_pos hd]; simp
    · cases cs with
      | nil => rw [execTask, if_neg hd, if_pos (by rfl)]; simp
      | cons c rest =>
        rw [execTask, if_neg hd, if_neg (show ¬ ((c :: rest).isEmpty = true) by simp)]
        by_cases hdep : depth < PAR_CUTOFF_DEPTH
        · rw [if_pos hdep]
          have := spawnLoop_length depth target (c :: rest)
            { s with nodesVisited := s.nodesVisited + 1 } 0
          omega
        · rw [if_neg hdep]; simp

theorem execTask_children_mem {α : Type} [DecidableEq α] (target : α) (t : TreeNode α)
    (depth : Int) (s : SearchState α) :
    ∀ task ∈ (execTask target ⟨t, depth⟩ s).2,
      task.depth = depth + 1 ∧ task.node ∈ TreeNode.children t := by
  cases t with
  | node d v cs =>
    intro task hmem
    by_cases hd : d = target
    · rw [execTask, if_pos hd] at hmem; cases hmem
    · cases cs with
      | nil => rw [execTask, if_neg hd, if_pos (by rfl)] at hmem; cases hmem
      | cons c rest =>
        rw [execTask, if_neg hd,
          if_neg (show ¬ ((c :: rest).isEmpty = true) by simp)] at hmem
        by_cases hdep : depth < PAR_CUTOFF_DEPTH
        · rw [if_pos hdep] at hmem
          exact spawnLoop_mem depth target (c :: rest)
            { s with nodesVisited := s.nodesVisited + 1 } 0 task hmem
        · rw [if_neg hdep] at hmem; cases hmem

theorem execTask_cutoff_tasks {α : Type} [DecidableEq α] (target : α) (t : TreeNode α)
    (depth : Int) (s : SearchState α) (hdep : PAR_CUTOFF_DEPTH ≤ depth) :
    (execTask target ⟨t, depth⟩ s).2 = [] := by
  cases t with
  | node d v cs =>
    by_cases hd : d = target
    · rw [execTask, if_pos hd]
    · cases cs with
      | nil => rw [execTask, if_neg hd, if_pos (by rfl)]
      | cons c rest =>
        rw [execTask, if_neg hd, if_neg (show ¬ ((c :: rest).isEmpty = true) by simp),
          if_neg (show ¬ depth < PAR_CUTOFF_DEPTH by omega)]

theorem execTask_cutoff_state {α : Type} [DecidableEq α] (target : α) (t : TreeNode α)
    (depth : Int) (s : SearchState α) (hdep : PAR_CUTOFF_DEPTH ≤ depth)
    (hd : ¬ TreeNode.data t = target) (hcs : TreeNode.children t ≠ []) :
    (execTask target ⟨t, depth⟩ s).1 =
      sequential_search t depth target { s with nodesVisited := s.nodesVisited + 1 } := by
  cases t with
  | node d v cs =>
    have hd' : ¬ d = target := hd
    cases cs with
    | nil => exact absurd rfl hcs
    | cons c rest =>
      rw [execTask, if_neg hd', if_neg (show ¬ ((c :: rest).isEmpty = true) by simp),
        if_neg (show ¬ depth < PAR_CUTOFF_DEPTH by omega)]

theorem execTask_spawn_tasks {α : Type} [DecidableEq α] (target : α) (t : TreeNode α)
    (depth : Int) (s : SearchState α) (hdep : depth < PAR_CUTOFF_DEPTH)
    (hf : s.found = false) (hd : ¬ TreeNode.data t = target) :
    (execTask target ⟨t, depth⟩ s).2 =
      ((TreeNode.children t).take MAX_PAR_CHILDREN).map (fun c => Task.mk c (depth + 1)) := by
  cases t with
  | node d v cs =>
    have hd' : ¬ d = target := hd
    cases cs with
    | nil => rw [execTask, if_neg hd', if_pos (by rfl)]; rfl
    | cons c rest =>
      rw [execTask, if_neg hd', if_neg (show ¬ ((c :: rest).isEmpty = true) by simp),
        if_pos hdep]
      have h1 := spawnLoop_tasks_eq depth target (c :: rest)
        { s with nodesVisited := s.nodesVisited + 1 } 0 hf
      rw [h1, Nat.sub_zero]
      rfl

theorem execTask_spawn_state {α : Type} [DecidableEq α] (target : α) (t : TreeNode α)
    (depth : Int) (s : SearchState α) (hdep : depth < PAR_CUTOFF_DEPTH)
    (hf : s.found = false) (hd : ¬ TreeNode.data t = target) :
    (execTask target ⟨t, depth⟩ s).1 =
      seqChildren ((TreeNode.children t).drop MAX_PAR_CHILDREN) depth target
        { s with nodesVisited := s.nodesVisited + 1,
                 tasksCreated := s.tasksCreated +
                   min MAX_PAR_CHILDREN (TreeNode.children t).length } := by
  cases t with
  | node d v cs =>
    have hd' : ¬ d = target := hd
    cases cs with
    | nil =>
      rw [execTask, if_neg hd', if_pos (by rfl)]
      show ({ s with nodesVisited := s.nodesVisited + 1 } : SearchState α) =
        seqChildren (List.drop MAX_PAR_CHILDREN []) depth target
          { s with nodesVisited := s.nodesVisited + 1,
                   tasksCreated := s.tasksCreated + min MAX_PAR_CHILDREN (List.length []) }
      rw [List.drop_nil, seqChildren]
      simp [MAX_PAR_CHILDREN]
    | cons c rest =>
      rw [execTask, if_neg hd', if_neg (show ¬ ((c :: rest).isEmpty = true) by simp),
        if_pos hdep]
      have h1 := spawnLoop_state_eq depth target (c :: rest)
        { s with nodesVisited := s.nodesVisited + 1 } 0 hf
      rw [h1, Nat.sub_zero]
      rfl

/-- C4: for every task a worker processes, child tasks are spawned only
below the cutoff depth; at most `MAX_PAR_CHILDREN` of the node's children
become tasks (each at the task's depth plus one, and each a child of the
node); when the task is below the cutoff and its node does not match, the
tasks are exactly the first `MAX_PAR_CHILDREN` children and the remaining
children are searched sequentially in order in the same worker; and at or
beyond the cutoff no task is created and the whole subtree is handed to
`sequential_search`. -/
theorem worker_spawn_discipline {α : Type} [DecidableEq α] (target : α) (t : TreeNode α)
    (depth : Int) (s : SearchState α) :
    (execTask target ⟨t, depth⟩ s).2.length ≤ MAX_PAR_CHILDREN ∧
    (∀ task ∈ (execTask target ⟨t, depth⟩ s).2,
      task.depth = depth + 1 ∧ task.node ∈ TreeNode.children t) ∧
    (PAR_CUTOFF_DEPTH ≤ depth → (execTask target ⟨t, depth⟩ s).2 = []) ∧
    (PAR_CUTOFF_DEPTH ≤ depth → ¬ TreeNode.data t = target →
      TreeNode.children t ≠ [] →
      (execTask target ⟨t, depth⟩ s).1 =
        sequential_search t depth target { s with nodesVisited := s.nodesVisited + 1 }) ∧
    (depth < PAR_CUTOFF_DEPTH → s.found = false → ¬ TreeNode.data t = target →
      (execTask target ⟨t, depth⟩ s).2 =
        ((TreeNode.children t).take MAX_PAR_CHILDREN).map (fun c => Task.mk c (depth + 1)) ∧
      (execTask target ⟨t, depth⟩ s).1 =
        seqChildren ((TreeNode.children t).drop MAX_PAR_CHILDREN) depth target
          { s with nodesVisited := s.nodesVisited + 1,
                   tasksCreated := s.tasksCreated +
                     min MAX_PAR_CHILDREN (TreeNode.children t).length }) :=
  ⟨execTask_len target t depth s,
   execTask_children_mem target t depth s,
   fun hdep => execTask_cutoff_tasks target t depth s hdep,
   fun hdep hd hcs => execTask_cutoff_state target t depth s hdep hd hcs,
   fun hdep hf hd =>
     ⟨execTask_spawn_tasks target t depth s hdep hf hd,
      execTask_spawn_state target t depth s hdep hf hd⟩⟩

/-- Concrete three-child node used to witness the spawn discipline. -/
def treeW : TreeNode Int :=
  TreeNode.node 0 false
    [TreeNode.node 10 false [], TreeNode.node 20 false [], TreeNode.node 30 false []]

/-- Fresh engine state (all per-run fields zeroed), as after the reset in
`search`. -/
def initState : SearchState Int :=
  { found := false, resultNode := none, nodesVisited := 0, tasksCreated := 0 }

/-- Witness for C4: at depth 5 (at/beyond the cutoff) the task spawns
nothing, and at depth 0 a node with three children spawns exactly its
first two children as tasks at depth 1. -/
theorem worker_spawn_discipline_witness :
    (execTask (99 : Int) ⟨treeW, 5⟩ initState).2 = [] ∧
    (execTask (99 : Int) ⟨treeW, 0⟩ initState).2 =
      [⟨TreeNode.node 10 false [], 1⟩, ⟨TreeNode.node 20 false [], 1⟩] := by
  constructor
  · exact (worker_spawn_discipline 99 treeW 5 initState).2.2.1 (by decide)
  · have h := ((worker_spawn_discipline 99 treeW 0 initState).2.2.2.2
      (by decide) rfl (by decide)).1
    rw [h]
    rfl

/-- C6: searching an empty (null) root returns the not-found result
immediately: no result, zero nodes visited, zero tasks created, and no
error outcome exists (the model of `search` is a total function). -/
theorem search_empty_root {α : Type} [DecidableEq α] (prior : SearchState α)
    (target : α) :
    ParallelTreeSearch.search prior none target =
      { found := false, resultNode := none, nodesVisited := 0, tasksCreated := 0 } := rfl

/-- Boolean check that a published result (if any) carries the target value. -/
def resultDataMatches {α : Type} [DecidableEq α] (target : α) :
    Option (TreeNode α) → Bool
  | none => true
  | some n => decide (TreeNode.data n = target)

/-- C7: `search` is insensitive to all engine state left by earlier runs
(every per-run field is reset), it returns a node exactly when the tree
contains the target, and any returned node's value equals the target.
Values and child lists of the tree are never changed: the model's run is a
pure function of the unchanged tree. -/
theorem search_reusable_and_correct {α : Type} [DecidableEq α]
    (prior prior' : SearchState α) (root : Option (TreeNode α)) (t : TreeNode α)
    (target : α) :
    ParallelTreeSearch.search prior root target =
      ParallelTreeSearch.search prior' root target ∧
    (ParallelTreeSearch.search prior (some t) target).resultNode.isSome =
      TreeNode.contains t target ∧
    resultDataMatches target
      (ParallelTreeSearch.search prior (some t) target).resultNode = true := by
  have hg : GoodState target
      ({ found := false, resultNode := none, nodesVisited := 0, tasksCreated := 1 } :
        SearchState α) := ⟨by simp, by intro n hn; cases hn⟩
  have hgood : GoodState target (ParallelTreeSearch.search prior (some t) target) :=
    runTasks_good target [⟨t, 0⟩] _ hg
  refine ⟨by cases root <;> rfl, ?_, ?_⟩
  · cases hc : TreeNode.contains t target with
    | true =>
      have hfound := runTasks_complete target [⟨t, 0⟩]
        { found := false, resultNode := none, nodesVisited := 0, tasksCreated := 1 }
        rfl ⟨⟨t, 0⟩, List.mem_cons_self _ _, hc⟩
      exact hgood.1.mp hfound
    | false =>
      have h2 := runTasks_no_find target [⟨t, 0⟩]
        { found := false, resultNode := none, nodesVisited := 0, tasksCreated := 1 }
        rfl (by
          intro task hmem
          cases List.mem_cons.mp hmem with
          | inl heq => rw [heq]; exact hc
          | inr hmem => cases hmem)
      show (runTasks target [⟨t, 0⟩] _).resultNode.isSome = false
      rw [h2.2]
      rfl
  · cases hres : (ParallelTreeSearch.search prior (some t) target).resultNode with
    | none => rw [resultDataMatches]
    | some n =>
      rw [resultDataMatches]
      simp [hgood.2 n hres]

/-- Chain 1→2→3→4→5→6: six nodes, node with value `k` at depth `k - 1`. -/
def pathTree6 : TreeNode Int :=
  TreeNode.node 1 false [TreeNode.node 2 false [TreeNode.node 3 false
    [TreeNode.node 4 false [TreeNode.node 5 false [TreeNode.node 6 false []]]]]]

/-- Chain 1→2→3→4→5→6→7: seven nodes, exactly one node with value 7. -/
def pathTree7 : TreeNode Int :=
  TreeNode.node 1 false [TreeNode.node 2 false [TreeNode.node 3 false
    [TreeNode.node 4 false [TreeNode.node 5 false [TreeNode.node 6 false
      [TreeNode.node 7 false []]]]]]]

/-- C1 (code-bug exhibit): on the 6-node chain with the absent target 99
the run returns no result — but `getNodesVisited()` is 7, exceeding the 6
nodes of the tree. The task for node 5 sits at depth 4 = `PAR_CUTOFF_DEPTH`,
so `worker_loop` counts it once and then calls `sequential_search` on the
same node, which counts it again. -/
theorem miss_overcounts_nodesVisited :
    (ParallelTreeSearch.search initState (some pathTree6) 99).resultNode = none ∧
    (ParallelTreeSearch.search initState (some pathTree6) 99).nodesVisited = 7 ∧
    TreeNode.size pathTree6 = 6 := by
  refine ⟨?_, ?_, ?_⟩ <;>
    simp [ParallelTreeSearch.search, runTasks, execTask, spawnLoop, sequential_search,
      seqChildren, PAR_CUTOFF_DEPTH, MAX_PAR_CHILDREN, pathTree6, initState,
      TreeNode.size, sizeList]

/-- C2 (code-bug exhibit): on the 7-node chain whose unique node with
value 7 is the deepest one, the run does return that node — but
`getNodesVisited()` is 8, exceeding the 7 nodes of the tree (same
double-count of the depth-4 task node as in the miss case), refuting
`visitedCount ≤ total node count`. -/
theorem unique_match_overcounts_nodesVisited :
    (ParallelTreeSearch.search initState (some pathTree7) 7).resultNode =
      some (TreeNode.node 7 false []) ∧
    (ParallelTreeSearch.search initState (some pathTree7) 7).nodesVisited = 8 ∧
    TreeNode.size pathTree7 = 7 := by
  refine ⟨?_, ?_, ?_⟩ <;>
    simp [ParallelTreeSearch.search, runTasks, execTask, spawnLoop, sequential_search,
      seqChildren, PAR_CUTOFF_DEPTH, MAX_PAR_CHILDREN, pathTree7, initState,
      TreeNode.size, sizeList]

/-- Error kind named by the specification for configurations rejected at
construction. -/
inductive ConfigError where
  | invalidConfiguration
deriving DecidableEq

/-- The engine configuration fixed at construction: the `threadCount`
member (paralleltreesearch.hpp line 45). -/
structure EngineConfig where
  threadCount : Nat
deriving DecidableEq

/-- Model of the constructor `ParallelTreeSearch(size_t numThreads)`
(paralleltreesearch.hpp lines 156-157): it initialises
`threadCount(numThreads ? numThreads : 1)` and its body is empty, so no
call can fail; every call returns `Except.ok`. The `Except` codomain
records the absence of any error outcome. -/
def parallelTreeSearchCtor (numThreads : Nat) : Except ConfigError EngineConfig :=
  Except.ok { threadCount := if numThreads ≠ 0 then numThreads else 1 }

/-- C5 counterexample: constructing with `threadCount = 0` is NOT rejected
with `InvalidConfiguration` (the constructor cannot fail at all). -/
theorem ctor_zero_not_rejected :
    parallelTreeSearchCtor 0 ≠ Except.error ConfigError.invalidConfiguration := by
  simp [parallelTreeSearchCtor]

/-- C5 amended: constructing with `threadCount = 0` silently succeeds,
substituting a thread count of 1. -/
theorem ctor_zero_substitutes_one :
    parallelTreeSearchCtor 0 = Except.ok { threadCount := 1 } := rfl

/-- Error kind for enqueue-after-shutdown (threadpool.hpp line 96 throws
`std::runtime_error("Cannot enqueue on stopped ThreadPool")`). -/
inductive PoolError where
  | poolClosed
deriving DecidableEq

/-- The state of `ThreadPool` touched by `enqueue` (threadpool.hpp lines
17-23): the FIFO `tasks` queue, the `stop` flag, and the `activeTasks`
counter. -/
structure ThreadPool (J : Type) where
  tasks : List J
  stop : Bool
  activeTasks : Int

/-- `ThreadPool::enqueue` (threadpool.hpp lines 89-103): under the queue
mutex, throw (modelled as `Except.error PoolError.poolClosed`) when `stop`
is set; otherwise append the job to the queue tail and bump `activeTasks`.
No capacity test of any kind is made. -/
def ThreadPool.enqueue {J : Type} (p : ThreadPool J) (f : J) :
    Except PoolError (ThreadPool J) :=
  if p.stop then Except.error PoolError.poolClosed
  else Except.ok { p with tasks := p.tasks ++ [f], activeTasks := p.activeTasks + 1 }

/-- C8: `enqueue` fails with `PoolClosed` exactly when shutdown has begun,
and otherwise succeeds for every pending-queue content whatever its length
(unbounded queue, no backpressure), appending the job at the tail. -/
theorem enqueue_spec {J : Type} (p : ThreadPool J) (f : J) :
    (p.stop = true → ThreadPool.enqueue p f = Except.error PoolError.poolClosed) ∧
    (p.stop = false → ThreadPool.enqueue p f =
      Except.ok { p with tasks := p.tasks ++ [f], activeTasks := p.activeTasks + 1 }) := by
  constructor
  · intro h
    rw [ThreadPool.enqueue, if_pos h]
  · intro h
    rw [ThreadPool.enqueue, if_neg (by simp [h])]

/-- Witness for C8 at a concrete pool: a running pool with three pending
jobs appends the fourth at the tail; a stopped pool rejects it. -/
theorem enqueue_spec_witness :
    ThreadPool.enqueue (⟨[1, 2, 3], false, 3⟩ : ThreadPool Nat) 4 =
      Except.ok ⟨[1, 2, 3, 4], false, 4⟩ ∧
    ThreadPool.enqueue (⟨[1, 2, 3], true, 3⟩ : ThreadPool Nat) 4 =
      Except.error PoolError.poolClosed := by
  constructor
  · exact (enqueue_spec ⟨[1, 2, 3], false, 3⟩ 4).2 rfl
  · exact (enqueue_spec ⟨[1, 2, 3], true, 3⟩ 4).1 rfl

/-- `TreeNode::markedVisited` (treenode.hpp lines 27-32) as a transition
of one node's `visited` flag: `compare_exchange_strong(expected = false,
true)` succeeds and sets the flag exactly when it was `false`. Returns
the C++ return value paired with the new flag value. -/
def markedVisited (visited : Bool) : Bool × Bool :=
  if visited = false then (true, true) else (false, visited)

/-- `TreeNode::isVisited` (treenode.hpp lines 34-36). -/
def isVisited (visited : Bool) : Bool := visited

/-- The node's `visited` flag after `k` calls to `markedVisited`, starting
from the constructor's initial `false` (treenode.hpp line 15). -/
def visitedAfter : Nat → Bool
  | 0 => false
  | k + 1 => (markedVisited (visitedAfter k)).2

theorem visitedAfter_succ_true (k : Nat) : visitedAfter (k + 1) = true := by
  induction k with
  | zero => rfl
  | succ k ih => rw [visitedAfter, ih]; rfl

/-- C9: the first `markedVisited` call returns `true`; every later call on
the same node returns `false`; and from the first call onward `isVisited`
reports `true`. -/
theorem markedVisited_first_call_wins :
    (markedVisited (visitedAfter 0)).1 = true ∧
    (∀ k, (markedVisited (visitedAfter (k + 1))).1 = false) ∧
    (∀ k, isVisited (visitedAfter (k + 1)) = true) := by
  refine ⟨rfl, ?_, ?_⟩
  · intro k
    rw [visitedAfter_succ_true k]
    rfl
  · intro k
    exact visitedAfter_succ_true k

/-- Shared state of the publish race: the `found` flag, the published
`resultNode` (identified by node value), and a count of how many writes
`resultNode` has received. -/
structure RaceState where
  found : Bool
  resultNode : Option Int
  resultWrites : Nat

/-- One worker about to publish a match, reduced to its shared-memory
steps in `worker_loop` (paralleltreesearch.hpp lines 119-124): pc 0 —
about to run the `found.load()` check of line 119 (on `true` the task is
discarded); pc 1 — about to run `resultNode = node` (line 122); pc 2 —
about to run `found.store(true)` (line 123); pc 3 — done. The same store
sequence occurs in `sequential_search` (lines 76-79). -/
structure MatchWorker where
  nodeValue : Int
  pc : Nat

/-- One interleaving step of a matching worker against the shared state,
exactly the operations the source performs: a load of `found`, a plain
unguarded write of `resultNode`, and a plain store of `found` — no
compare-and-set anywhere. -/
def raceStep (w : MatchWorker) (g : RaceState) : MatchWorker × RaceState :=
  if w.pc = 0 then
    if g.found then ({ w with pc := 3 }, g) else ({ w with pc := 1 }, g)
  else if w.pc = 1 then
    ({ w with pc := 2 },
      { g with resultNode := some w.nodeValue, resultWrites := g.resultWrites + 1 })
  else if w.pc = 2 then
    ({ w with pc := 3 }, { g with found := true })
  else (w, g)

/-- Run an interleaving over two workers: `true` steps the first worker,
`false` the second. -/
def runRace : List Bool → MatchWorker × MatchWorker × RaceState →
    MatchWorker × MatchWorker × RaceState
  | [], st => st
  | b :: rest, (w1, w2, g) =>
    if b then runRace rest ((raceStep w1 g).1, w2, (raceStep w1 g).2)
    else runRace rest (w1, (raceStep w2 g).1, (raceStep w2 g).2)

/-- C3 (code-bug exhibit): two workers hold matching tasks (node values 1
and 2); in the interleaving where both pass the `found.load()` check
before either stores `found`, BOTH workers write `resultNode` — two
writes — because the publish is a plain store guarded only by the earlier
load; there is no compare-and-set and no single-writer discipline. -/
theorem publish_race_two_writers :
    (runRace [true, false, true, true, false, false]
      (⟨1, 0⟩, ⟨2, 0⟩, ⟨false, none, 0⟩)).2.2.resultWrites = 2 ∧
    (runRace [true, false, true, true, false, false]
      (⟨1, 0⟩, ⟨2, 0⟩, ⟨false, none, 0⟩)).2.2.found = true ∧
    (runRace [true, false, true, true, false, false]
      (⟨1, 0⟩, ⟨2, 0⟩, ⟨false, none, 0⟩)).2.2.resultNode = some 2 := ⟨rfl, rfl, rfl⟩

mutual
/-- Apply `g` to every node's `visited` flag, leaving values and the child
structure unchanged (used to state that the engine ignores the flag). -/
def mapVisited {α : Type} (g : Bool → Bool) : TreeNode α → TreeNode α
  | .node d v cs => .node d (g v) (mapVisitedList g cs)

/-- Apply `g` to every `visited` flag of every tree in the list. -/
def mapVisitedList {α : Type} (g : Bool → Bool) :
    List (TreeNode α) → List (TreeNode α)
  | [] => []
  | c :: rest => mapVisited g c :: mapVisitedList g rest
end

mutual
/-- `resetTree` from `src/main.cpp` lines 8-18: store `false` into every
node's `visited` flag, recursively, before each search. -/
def resetTree {α : Type} : TreeNode α → TreeNode α
  | .node d _ cs => .node d false (resetTreeList cs)

/-- The recursive child traversal of `resetTree`. -/
def resetTreeList {α : Type} : List (TreeNode α) → List (TreeNode α)
  | [] => []
  | c :: rest => resetTree c :: resetTreeList rest
end

/-- Transport a search state along a visited-flag rewrite: only the
published node (a subtree of the searched tree) changes, by the same flag
map; `found` and both counters are untouched. -/
def mapState {α : Type} (g : Bool → Bool) (s : SearchState α) : SearchState α :=
  { s with resultNode := s.resultNode.map (mapVisited g) }

/-- Transport a task along a visited-flag rewrite. -/
def mapTask {α : Type} (g : Bool → Bool) (t : Task α) : Task α :=
  ⟨mapVisited g t.node, t.depth⟩

mutual
theorem sequential_search_map {α : Type} [DecidableEq α] (g : Bool → Bool)
    (t : TreeNode α) (depth : Int) (target : α) (s : SearchState α) :
    sequential_search (mapVisited g t) depth target (mapState g s) =
      mapState g (sequential_search t depth target s) := by
  cases t with
  | node d v cs =>
    by_cases hf : s.found = true
    · rw [sequential_search_found_id _ _ _ _ (show (mapState g s).found = true from hf),
        sequential_search_found_id _ _ _ _ hf]
    · rw [mapVisited, sequential_search, sequential_search,
        if_neg (show ¬ (mapState g s).found = true from hf), if_neg hf]
      by_cases hd : d = target
      · rw [if_pos hd, if_pos hd]
        simp [mapState, mapVisited]
      · rw [if_neg hd, if_neg hd]
        have hst : ({ mapState g s with
            nodesVisited := (mapState g s).nodesVisited + 1 } : SearchState α) =
            mapState g { s with nodesVisited := s.nodesVisited + 1 } := rfl
        rw [hst]
        exact seqChildren_map g cs depth target { s with nodesVisited := s.nodesVisited + 1 }

theorem seqChildren_map {α : Type} [DecidableEq α] (g : Bool → Bool)
    (cs : List (TreeNode α)) (depth : Int) (target : α) (s : SearchState α) :
    seqChildren (mapVisitedList g cs) depth target (mapState g s) =
      mapState g (seqChildren cs depth target s) := by
  cases cs with
  | nil =>
    rw [show mapVisitedList g ([] : List (TreeNode α)) = [] from by rw [mapVisitedList],
      seqChildren, seqChildren]
  | cons c rest =>
    rw [show mapVisitedList g (c :: rest) = mapVisited g c :: mapVisitedList g rest from
        by rw [mapVisitedList],
      seqChildren, seqChildren]
    by_cases hf : s.found = true
    · rw [if_pos (show (mapState g s).found = true from hf), if_pos hf]
    · rw [if_neg (show ¬ (mapState g s).found = true from hf), if_neg hf,
        sequential_search_map g c (depth + 1) target s]
      exact seqChildren_map g rest depth target (sequential_search c (depth + 1) target s)
end

theorem spawnLoop_map {α : Type} [DecidableEq α] (g : Bool → Bool) (depth : Int)
    (target : α) :
    ∀ (cs : List (TreeNode α)) (s : SearchState α) (spawned : Nat),
      spawnLoop depth target (mapVisitedList g cs) (mapState g s) spawned =
        (mapState g (spawnLoop depth target cs s spawned).1,
         (spawnLoop depth target cs s spawned).2.map (mapTask g)) := by
  intro cs
  induction cs with
  | nil =>
    intro s spawned
    rw [show mapVisitedList g ([] : List (TreeNode α)) = [] from by rw [mapVisitedList],
      spawnLoop, spawnLoop]
    rfl
  | cons c rest ih =>
    intro s spawned
    rw [show mapVisitedList g (c :: rest) = mapVisited g c :: mapVisitedList g rest from
        by rw [mapVisitedList],
      spawnLoop, spawnLoop]
    by_cases hf : s.found = true
    · rw [if_pos (show (mapState g s).found = true from hf), if_pos hf]
      rfl
    · rw [if_neg (show ¬ (mapState g s).found = true from hf), if_neg hf]
      by_cases hs : spawned < MAX_PAR_CHILDREN
      · rw [if_pos hs, if_pos hs]
        have hst : ({ mapState g s with
            tasksCreated := (mapState g s).tasksCreated + 1 } : SearchState α) =
            mapState g { s with tasksCreated := s.tasksCreated + 1 } := rfl
        rw [hst, ih { s with tasksCreated := s.tasksCreated + 1 } (spawned + 1)]
        simp [mapTask]
      · rw [if_neg hs, if_neg hs, sequential_search_map g c (depth + 1) target s]
        by_cases hs1 : (sequential_search c (depth + 1) target s).found = true
        · rw [if_pos (show (mapState g
              (sequential_search c (depth + 1) target s)).found = true from hs1),
            if_pos hs1]
          rfl
        · rw [if_neg (show ¬ (mapState g
              (sequential_search c (depth + 1) target s)).found = true from hs1),
            if_neg hs1]
          exact ih (sequential_search c (depth + 1) target s) spawned

theorem execTask_map {α : Type} [DecidableEq α] (g : Bool → Bool) (target : α)
    (t : Task α) (s : SearchState α) :
    execTask target (mapTask g t) (mapState g s) =
      (mapState g (execTask target t s).1, (execTask target t s).2.map (mapTask g)) := by
  obtain ⟨n, depth⟩ := t
  cases n with
  | node d v cs =>
    show execTask target ⟨mapVisited g (TreeNode.node d v cs), depth⟩ (mapState g s) = _
    rw [mapVisited]
    by_cases hd : d = target
    · rw [execTask, execTask, if_pos hd, if_pos hd]
      simp [mapState, mapVisited]
    · cases cs with
      | nil =>
        rw [show mapVisitedList g ([] : List (TreeNode α)) = [] from by rw [mapVisitedList],
          execTask, execTask, if_neg hd, if_neg hd, if_pos (by rfl), if_pos (by rfl)]
        rfl
      | cons c rest =>
        have hcons : mapVisitedList g (c :: rest) =
            mapVisited g c :: mapVisitedList g rest := by rw [mapVisitedList]
        rw [execTask, execTask, if_neg hd, if_neg hd,
          if_neg (show ¬ ((mapVisitedList g (c :: rest)).isEmpty = true) from by
            rw [hcons]; simp),
          if_neg (show ¬ ((c :: rest).isEmpty = true) by simp)]
        by_cases hdep : depth < PAR_CUTOFF_DEPTH
        · rw [if_pos hdep, if_pos hdep]
          have hst : ({ mapState g s with
              nodesVisited := (mapState g s).nodesVisited + 1 } : SearchState α) =
              mapState g { s with nodesVisited := s.nodesVisited + 1 } := rfl
          rw [hst]
          exact spawnLoop_map g depth target (c :: rest)
            { s with nodesVisited := s.nodesVisited + 1 } 0
        · rw [if_neg hdep, if_neg hdep]
          have hmv : (TreeNode.node d (g v) (mapVisitedList g (c :: rest)) : TreeNode α) =
              mapVisited g (TreeNode.node d v (c :: rest)) := by rw [mapVisited]
          have hst : ({ mapState g s with
              nodesVisited := (mapState g s).nodesVisited + 1 } : SearchState α) =
              mapState g { s with nodesVisited := s.nodesVisited + 1 } := rfl
          rw [hmv, hst,
            sequential_search_map g (TreeNode.node d v (c :: rest)) depth target
              { s with nodesVisited := s.nodesVisited + 1 }]
          rfl

theorem runTasks_map {α : Type} [DecidableEq α] (g : Bool → Bool) (target : α) :
    ∀ (ts : List (Task α)) (s : SearchState α),
      runTasks target (ts.map (mapTask g)) (mapState g s) =
        mapState g (runTasks target ts s)
  | [], s => by rw [List.map_nil, runTasks, runTasks]
  | t :: rest, s => by
    rw [List.map_cons, runTasks, runTasks]
    by_cases hf : s.found = true
    · rw [if_pos (show (mapState g s).found = true from hf), if_pos hf]
      exact runTasks_map g target rest s
    · rw [if_neg (show ¬ (mapState g s).found = true from hf), if_neg hf,
        execTask_map g target t s]
      have h2 := runTasks_map g target ((execTask target t s).2.reverse ++ rest)
        (execTask target t s).1
      rw [List.map_append, List.map_reverse] at h2
      exact h2
termination_by ts _ => tasksSize ts
decreasing_by
  · simp only [tasksSize]
    have := size_pos t.node
    omega
  · simp only [tasksSize, tasksSize_append, tasksSize_reverse]
    have := execTask_tasksSize target t s
    omega

mutual
theorem resetTree_eq_map {α : Type} (t : TreeNode α) :
    resetTree t = mapVisited (fun _ => false) t := by
  cases t with
  | node d v cs => rw [resetTree, mapVisited, resetTreeList_eq_map cs]

theorem resetTreeList_eq_map {α : Type} (cs : List (TreeNode α)) :
    resetTreeList cs = mapVisitedList (fun _ => false) cs := by
  cases cs with
  | nil => rw [resetTreeList, mapVisitedList]
  | cons c rest =>
    rw [resetTreeList, mapVisitedList, resetTree_eq_map c, resetTreeList_eq_map rest]
end

/-- C10: the engine never depends on (nor, being a pure function of the
tree, changes) the nodes' `visited` flags: rewriting every `visited` flag
by an arbitrary `g` changes nothing about the run — same `found`, same
`nodesVisited` and task count, and the same returned node up to the same
flag rewrite. The `resetTree` pass of `main.cpp` is exactly
`mapVisited (fun _ => false)`, so performing it before a search is
unnecessary for this engine. -/
theorem search_ignores_visited {α : Type} [DecidableEq α] (g : Bool → Bool)
    (prior : SearchState α) (root : Option (TreeNode α)) (target : α)
    (t : TreeNode α) :
    ParallelTreeSearch.search prior (root.map (mapVisited g)) target =
      mapState g (ParallelTreeSearch.search prior root target) ∧
    resetTree t = mapVisited (fun _ => false) t := by
  constructor
  · cases root with
    | none => rfl
    | some r =>
      have h := runTasks_map g target [⟨r, 0⟩]
        { found := false, resultNode := none, nodesVisited := 0, tasksCreated := 1 }
      exact h
  · exact resetTree_eq_map t

end PTS
